import Mathlib

/-
Verification of the oxli k-mer counting table (src/lib.rs) against its
specification.  The Rust code is shallowly embedded: `HashMap<u64,u64>` becomes
an association list `List (Nat × Nat)` with unique keys (HashMap iteration
order is unspecified, and no property below depends on an order), `u64`
arithmetic is `Nat` arithmetic reduced mod 2^64 where the code can wrap, and
fallible operations return `Except` paired with the mutated table (Rust
methods take `&mut self`, so mutations made before an error persist).  The
external sourmash `SeqToHashes` encoder is out of the repository; it is
modelled from the spec as a parameter `H` (the seeded black-box hash) wrapped
in the documented boundary behaviour.
-/

set_option maxHeartbeats 1000000

namespace Oxli

/-- Modulus of Rust u64 arithmetic; additions in the code wrap at this value. -/
def u64Mod : Nat := 2 ^ 64

/-- Membership of a character in the uppercase DNA alphabet, mirroring the
check in the Rust function canon, which tests the uppercased character
against the string ATCG. -/
def isDNA (c : Char) : Bool := c = 'A' || c = 'T' || c = 'C' || c = 'G'

/-- Complement of one base, mirroring the match expression in canon
(characters outside ACGT map to themselves there, an unreachable arm). -/
def compl (c : Char) : Char :=
  if c = 'A' then 'T'
  else if c = 'T' then 'A'
  else if c = 'C' then 'G'
  else if c = 'G' then 'C'
  else c

/-- Uppercasing of a sequence.  Rust uses String to_uppercase in canon and
to_ascii_uppercase in KmersAndHashesIter; the two agree on every character
(on ASCII input, which is all the DNA pipeline distinguishes), and both are
modelled by ASCII Char.toUpper. -/
def upperL (s : List Char) : List Char := s.map Char.toUpper

/-- Reverse complement: reverse the sequence, then complement each base.
Mirrors canon (chars().rev().map(complement)) and sourmash revcomp. -/
def rcL (s : List Char) : List Char := s.reverse.map compl

/-- A sequence is valid DNA when every character is in ACGT (uppercase). -/
def validDNA (s : List Char) : Bool := s.all isDNA

/-- Byte-wise lexicographic less-or-equal on strings, as Rust String Ord
(on ASCII, byte order and character order coincide). -/
def lexLe : List Char → List Char → Bool
  | [], _ => true
  | _ :: _, [] => false
  | a :: as, b :: bs => if a < b then true else if b < a then false else lexLe as bs

/-- Byte-wise lexicographic strict less-than on strings, as Rust String Ord. -/
def lexLt : List Char → List Char → Bool
  | [], [] => false
  | [], _ :: _ => true
  | _ :: _, [] => false
  | a :: as, b :: bs => if a < b then true else if b < a then false else lexLt as bs

/-- Canonical form of an uppercase k-mer: the lexicographically smaller of the
k-mer and its reverse complement. -/
def canonList (s : List Char) : List Char := if lexLe s (rcL s) then s else rcL s

/-- Lookup in an association list, modelling HashMap get. -/
def alookup {β : Type} : List (Nat × β) → Nat → Option β
  | [], _ => none
  | p :: rest, k => if p.1 = k then some p.2 else alookup rest k

/-- Lookup with a default, modelling unwrap_or / entry(k).or_insert(d) reads. -/
def alookupD {β : Type} (m : List (Nat × β)) (k : Nat) (d : β) : β := (alookup m k).getD d

/-- Removal of a key, modelling HashMap remove. -/
def aerase {β : Type} (m : List (Nat × β)) (k : Nat) : List (Nat × β) :=
  m.filter (fun p => decide (p.1 ≠ k))

/-- Insert-or-replace of a key, modelling HashMap insert (a key occurs at most
once; where the new entry sits in the list is irrelevant, HashMap order being
unspecified). -/
def aset {β : Type} (m : List (Nat × β)) (k : Nat) (v : β) : List (Nat × β) :=
  (k, v) :: aerase m k

/-- Key list of an association list, modelling HashMap keys. -/
def akeys {β : Type} (m : List (Nat × β)) : List Nat := m.map Prod.fst

/-- Error taxonomy of the fallible table operations (PyValueError messages in
the Rust code, represented by constructor). -/
inductive TErr where
  | wrongKsize
  | invalidChars
  | badKmer
  | incompatibleKsize
  | storeDisabled
  | dualSort
deriving DecidableEq

/-- Version tag recorded at construction (CARGO_PKG_VERSION in the code,
an opaque build-time constant never branched on except in load warnings). -/
def versionTag : List Char := "0.19.0".data

/-- The KmerCountTable struct: counts maps u64 hash to u64 count, ksize is the
k-mer size, consumed tallies bases processed, and hash_to_kmer is the optional
canonical-k-mer side table present exactly when store_kmers was requested. -/
structure KmerCountTable where
  counts : List (Nat × Nat)
  ksize : Nat
  version : List Char
  consumed : Nat
  store_kmers : Bool
  hash_to_kmer : Option (List (Nat × List Char))

/-- Constructor: an empty table with the chosen ksize and store_kmers flag. -/
def KmerCountTable.new (ksize : Nat) (store_kmers : Bool) : KmerCountTable :=
  { counts := []
    ksize := ksize
    version := versionTag
    consumed := 0
    store_kmers := store_kmers
    hash_to_kmer := if store_kmers then some [] else none }

/-- count_hash: unconditional increment of counts at a hash (entry or_insert 0,
then += 1), returning the new count. -/
def countHash (t : KmerCountTable) (hashval : Nat) : KmerCountTable × Nat :=
  let c := (alookupD t.counts hashval 0 + 1) % u64Mod
  ({ t with counts := aset t.counts hashval c }, c)

/-- get_hash: the count stored for a hash, 0 when absent. -/
def getHash (t : KmerCountTable) (hashval : Nat) : Nat := alookupD t.counts hashval 0

/-- canon: canonical form of a k-mer string.  Exact length check against
ksize, uppercase, validate against ACGT, then return the lexicographically
smaller of the uppercased k-mer and its reverse complement. -/
def canon (t : KmerCountTable) (kmer : List Char) : Except TErr (List Char) :=
  if kmer.length ≠ t.ksize then Except.error TErr.wrongKsize
  else
    let ku := upperL kmer
    if validDNA ku = false then Except.error TErr.invalidChars
    else if lexLe ku (rcL ku) then Except.ok ku
    else Except.ok (rcL ku)

/-- List of sliding windows of width k (length + 1 - k of them; none when the
sequence is shorter than k). -/
def windows (s : List Char) (k : Nat) : List (List Char) :=
  (List.range (s.length + 1 - k)).map (fun i => (s.drop i).take k)

/-- Modelled from the spec: the external sourmash SeqToHashes encoder
boundary (not part of this repository).  It yields one result per sliding
window of the case-normalized sequence; a window containing a character the
encoder cannot use yields the sentinel 0 under tolerance (force) and an error
otherwise, and a good window yields the seeded black-box hash H of the
window in canonical form (the hash routine canonicalizes internally). -/
def encStream (H : List Char → Nat) (s : List Char) (k : Nat) (force : Bool) :
    List (Except Unit Nat) :=
  (windows (upperL s) k).map (fun w =>
    if validDNA w then Except.ok (H (canonList w))
    else if force then Except.ok 0 else Except.error ())

/-- hash_kmer: length check (the Rust code compares kmer.len() as u8, a
truncating cast, hence the mod 256), then the first encoder result in
intolerant mode.  The unwrap of next() on an empty stream (a panic in Rust,
unreachable for u8 ksize) is modelled as an error. -/
def hashKmer (H : List Char → Nat) (t : KmerCountTable) (kmer : List Char) :
    Except TErr Nat :=
  if kmer.length % 256 ≠ t.ksize then Except.error TErr.wrongKsize
  else
    match (encStream H kmer t.ksize false).head? with
    | some (Except.ok h) => Except.ok h
    | some (Except.error _) => Except.error TErr.badKmer
    | none => Except.error TErr.badKmer

/-- count: length check (u8-truncated), hash, increment via count_hash, add
the k-mer length to consumed, and, when store_kmers, insert (overwriting) the
canonical form into hash_to_kmer.  A canon failure happens after the count
and consumed mutations, which therefore persist, as in the Rust code. -/
def count (H : List Char → Nat) (t : KmerCountTable) (kmer : List Char) :
    KmerCountTable × Except TErr Nat :=
  if kmer.length % 256 ≠ t.ksize then (t, Except.error TErr.wrongKsize)
  else
    match hashKmer H t kmer with
    | Except.error e => (t, Except.error e)
    | Except.ok hashval =>
      let r := countHash t hashval
      let t1 := { r.1 with consumed := (r.1.consumed + kmer.length) % u64Mod }
      if t1.store_kmers then
        match canon t1 kmer with
        | Except.error e => (t1, Except.error e)
        | Except.ok ck =>
          ({ t1 with hash_to_kmer := some (aset (t1.hash_to_kmer.getD []) hashval ck) },
            Except.ok r.2)
      else (t1, Except.ok r.2)

/-- mincut: collect the keys whose count is strictly below the bound, remove
them, and return how many were collected (two-pass, as in the Rust code). -/
def mincut (t : KmerCountTable) (min_count : Nat) : KmerCountTable × Nat :=
  let to_remove := (t.counts.filter (fun p => decide (p.2 < min_count))).map Prod.fst
  ({ t with counts := to_remove.foldl (fun m h => aerase m h) t.counts }, to_remove.length)

/-- maxcut: collect the keys whose count is strictly above the bound, remove
them, and return how many were collected. -/
def maxcut (t : KmerCountTable) (max_count : Nat) : KmerCountTable × Nat :=
  let to_remove := (t.counts.filter (fun p => decide (max_count < p.2))).map Prod.fst
  ({ t with counts := to_remove.foldl (fun m h => aerase m h) t.counts }, to_remove.length)

/-- max getter: largest stored count, 0 on an empty table. -/
def tmax (t : KmerCountTable) : Nat :=
  if t.counts.isEmpty then 0 else (t.counts.map Prod.snd).foldl Nat.max 0

/-- Tally of hashes holding exactly the count v (the freq_count accumulation
in histo, built from the multiset of stored count values). -/
def freqCount (t : KmerCountTable) (v : Nat) : Nat :=
  ((t.counts.map Prod.snd).filter (fun c => decide (c = v))).length

/-- histo: with zero, one pair per count value in 0..=max; without, one pair
per observed count value in ascending order (the Rust code sorts the entries
of the freq_count HashMap by count value, which is the same ascending
enumeration of the observed values). -/
def histo (t : KmerCountTable) (zero : Bool) : List (Nat × Nat) :=
  if zero then (List.range (tmax t + 1)).map (fun v => (v, freqCount t v))
  else (List.range (tmax t + 1)).filterMap
    (fun v => if freqCount t v = 0 then none else some (v, freqCount t v))

/-- hash_set: set of keys of the counts map. -/
def hashSetF (t : KmerCountTable) : Finset Nat := (akeys t.counts).toFinset

/-- Set union of two tables (key identity only). -/
def unionF (t o : KmerCountTable) : Finset Nat := hashSetF t ∪ hashSetF o

/-- Set intersection of two tables (key identity only). -/
def interF (t o : KmerCountTable) : Finset Nat := hashSetF t ∩ hashSetF o

/-- jaccard: intersection size over union size, with 1 by convention when the
union is empty.  The Rust f64 quotient of the two exact integer sizes is
modelled in exact rational arithmetic. -/
def jaccard (t o : KmerCountTable) : ℚ :=
  if (unionF t o).card = 0 then 1
  else ((interF t o).card : ℚ) / ((unionF t o).card : ℚ)

/-- One fan-out step of add: read the destination count (entry or_insert 0),
bump the new-keys counter when it was 0, add the incoming count (u64 wrap),
and accumulate the total mass added.  The Rust code applies these steps in
parallel under one mutex, each hash of other occurring once, so the final
state is the same as this sequential fold in any order. -/
def addStep (acc : List (Nat × Nat) × Nat × Nat) (p : Nat × Nat) :
    List (Nat × Nat) × Nat × Nat :=
  let cur := alookupD acc.1 p.1 0
  let nk := if cur = 0 then (acc.2.2 + 1) % u64Mod else acc.2.2
  (aset acc.1 p.1 ((cur + p.2) % u64Mod), (acc.2.1 + p.2) % u64Mod, nk)

/-- Insert-if-absent, modelling entry(hash).or_insert_with(kmer) in the
k-mer-map half of add: an existing mapping is never replaced. -/
def orInsert (m : List (Nat × List Char)) (h : Nat) (km : List Char) :
    List (Nat × List Char) :=
  match alookup m h with
  | some _ => m
  | none => (h, km) :: m

/-- add: requires equal ksize; folds every (hash,count) pair of other into
self, adds other.consumed to consumed, and, when both tables store k-mers,
inserts each of other's hash-to-kmer entries only if absent.  When only self
stores k-mers the map is left alone (the Rust code prints a warning).
Returns (total counts added, new keys added). -/
def add (t other : KmerCountTable) : KmerCountTable × Except TErr (Nat × Nat) :=
  if t.ksize ≠ other.ksize then (t, Except.error TErr.incompatibleKsize)
  else
    let st := other.counts.foldl addStep (t.counts, 0, 0)
    let h2k :=
      if t.store_kmers && other.store_kmers then
        some ((other.hash_to_kmer.getD []).foldl
          (fun m p => orInsert m p.1 p.2) (t.hash_to_kmer.getD []))
      else t.hash_to_kmer
    ({ t with counts := st.1
              consumed := (t.consumed + other.consumed) % u64Mod
              hash_to_kmer := h2k },
      Except.ok (st.2.1, st.2.2))

/-- KmersAndHashesIter: for every position below end = len + 1 - k, pair the
forward window of the uppercased sequence and the mirrored slice of the
precomputed whole-sequence reverse complement, take the encoder's hash for
that position (tolerant mode), and yield the lexicographically smaller window
with its hash when the hash is nonzero; at a zero hash the position is skipped
under skip_bad_kmers and otherwise yields the tombstone (empty string, 0).
Rust computes end with wrapping usize arithmetic (a panic when
len + 1 < k); Nat subtraction makes that case yield no positions here. -/
def kmersAndHashes (H : List Char → Nat) (seq : List Char) (k : Nat)
    (skip_bad_kmers : Bool) : List (List Char × Nat) :=
  let s := upperL seq
  let s2 := rcL s
  let e := s.length + 1 - k
  let hs := encStream H s k true
  (List.range e).filterMap (fun pos =>
    let substr := (s.drop pos).take k
    let substr_rc := (s2.drop (e - pos - 1)).take k
    match hs[pos]? with
    | some (Except.ok h) =>
      if h ≠ 0 then some (if lexLt substr substr_rc then substr else substr_rc, h)
      else if skip_bad_kmers then none else some ([], 0)
    | _ => none)

/-- Loop of the non-retaining consume path: a zero hash is skipped without
counting, a nonzero hash is counted via count_hash and tallied, and an
encoder error aborts, keeping the mutations made so far. -/
def consumeHashesLoop :
    KmerCountTable → List (Except Unit Nat) → Nat → KmerCountTable × Except TErr Nat
  | t, [], n => (t, Except.ok n)
  | t, Except.error _ :: _, n =>
    let _ := n
    (t, Except.error TErr.badKmer)
  | t, Except.ok h :: rest, n =>
    if h = 0 then consumeHashesLoop t rest n
    else consumeHashesLoop (countHash t h).1 rest (n + 1)

/-- Loop of the retaining consume path: each pair with a nonzero hash has its
canonical k-mer inserted (overwriting) into hash_to_kmer and its count
incremented; zero-hash tombstones are not counted. -/
def consumePairsLoop :
    KmerCountTable → List (List Char × Nat) → Nat → KmerCountTable × Nat
  | t, [], n => (t, n)
  | t, (km, h) :: rest, n =>
    if h ≠ 0 then
      consumePairsLoop
        { t with hash_to_kmer := some (aset (t.hash_to_kmer.getD []) h km)
                 counts := aset t.counts h ((alookupD t.counts h 0 + 1) % u64Mod) }
        rest (n + 1)
    else consumePairsLoop t rest n

/-- consume: drives the retaining iterator (when store_kmers) or the raw
encoder stream (otherwise) over the sequence, then adds the sequence length
to consumed once at the end of a successful call and returns the number of
positions counted.  In the retaining path the encoder runs in tolerant mode,
so no error arises there. -/
def consume (H : List Char → Nat) (t : KmerCountTable) (seq : List Char)
    (skip_bad_kmers : Bool) : KmerCountTable × Except TErr Nat :=
  if t.store_kmers then
    let r := consumePairsLoop t (kmersAndHashes H seq t.ksize skip_bad_kmers) 0
    ({ r.1 with consumed := (r.1.consumed + seq.length) % u64Mod }, Except.ok r.2)
  else
    match consumeHashesLoop t (encStream H seq t.ksize skip_bad_kmers) 0 with
    | (t1, Except.ok n) =>
      ({ t1 with consumed := (t1.consumed + seq.length) % u64Mod }, Except.ok n)
    | (t1, Except.error e) => (t1, Except.error e)

/-- Comparator for dump_kmers sortkeys: lexicographic on the canonical k-mer. -/
def kmerLe (a b : List Char × Nat) : Bool := lexLe a.1 b.1

/-- Comparator for dump_kmers sortcounts: by count, then by canonical k-mer. -/
def countKmerLe (a b : List Char × Nat) : Bool :=
  if a.2 < b.2 then true else if b.2 < a.2 then false else lexLe a.1 b.1

/-- dump_kmers: fails without k-mer retention or with both sort flags;
otherwise pairs every hash-to-kmer entry whose hash is present in counts with
its count (entries absent from counts are dropped by the filter_map), sorted
per the flags.  The parallel iteration and parallel sort of the Rust code
only affect ordering of equal elements, never membership. -/
def dumpKmers (t : KmerCountTable) (sortcounts sortkeys : Bool) :
    Except TErr (List (List Char × Nat)) :=
  if t.store_kmers = false then Except.error TErr.storeDisabled
  else if sortcounts && sortkeys then Except.error TErr.dualSort
  else
    let pairs := (t.hash_to_kmer.getD []).filterMap
      (fun p => (alookup t.counts p.1).map (fun c => (p.2, c)))
    if sortkeys then Except.ok (pairs.mergeSort kmerLe)
    else if sortcounts then Except.ok (pairs.mergeSort countKmerLe)
    else Except.ok pairs

/-- Repeated application of count_hash at one hash (used to state the
counting property of the spec). -/
def countHashIter (t : KmerCountTable) (h : Nat) : Nat → KmerCountTable
  | 0 => t
  | n + 1 => (countHash (countHashIter t h n) h).1

/-- Concrete table used as the witness input for the cut semantics (counts
1, 5 and 2 under three distinct hashes). -/
def cutWitnessTable : KmerCountTable :=
  { counts := [(1, 1), (2, 5), (3, 2)]
    ksize := 3
    version := versionTag
    consumed := 9
    store_kmers := false
    hash_to_kmer := none }

/-- Concrete table with stored counts 1, 1 and 2 (under hashes 10, 20, 30),
built by count_hash, used for the histogram scenario of the spec. -/
def histoWitnessTable : KmerCountTable :=
  (countHash (countHash (countHash (countHash
    (KmerCountTable.new 3 false) 10).1 20).1 30).1 30).1

/-- Concrete non-empty table (one hash) used as witness input for jaccard. -/
def jaccardWitnessA : KmerCountTable :=
  { counts := [(5, 2)]
    ksize := 3
    version := versionTag
    consumed := 3
    store_kmers := false
    hash_to_kmer := none }

/-- Concrete destination table for the add witness. -/
def addWitnessA : KmerCountTable :=
  { counts := [(5, 3)]
    ksize := 2
    version := versionTag
    consumed := 2
    store_kmers := false
    hash_to_kmer := none }

/-- Concrete source table for the add witness. -/
def addWitnessB : KmerCountTable :=
  { counts := [(9, 1), (5, 2)]
    ksize := 2
    version := versionTag
    consumed := 4
    store_kmers := false
    hash_to_kmer := none }

/-- Concrete retaining table whose k-mer map holds one stale hash (9) absent
from counts, used as the dump_kmers witness. -/
def dumpWitnessTable : KmerCountTable :=
  { counts := [(5, 2)]
    ksize := 2
    version := versionTag
    consumed := 4
    store_kmers := true
    hash_to_kmer := some [(5, "AA".data), (9, "CC".data)] }

/-- Hash observed at one window position of an (uppercased) sequence in
tolerant mode: the hash of the canonical window when the window is good and
the sentinel 0 otherwise.  Statement-level abbreviation for the encoder
boundary. -/
def winHash (H : List Char → Nat) (w : List Char) : Nat :=
  if validDNA w then H (canonList w) else 0

/-- Predicate selecting the stream elements that the consume loop counts:
a successful nonzero hash. -/
def okNonzero : Except Unit Nat → Bool
  | Except.ok h => decide (h ≠ 0)
  | Except.error _ => false

/-- A colliding instantiation of the black-box hash boundary (every k-mer
hashes to 5); the boundary contract promises nothing about injectivity, and
the real 64-bit hash cannot be injective once 4^k/2 canonical k-mers exceed
2^64. -/
def collHash : List Char → Nat := fun _ => 5

/-- Fresh retaining table with k = 1 for the collision scenario. -/
def collTable0 : KmerCountTable := KmerCountTable.new 1 true

/-- The collision-scenario table after counting the k-mer A. -/
def collTable1 : KmerCountTable := (count collHash collTable0 (['A'])).1

/-- The collision-scenario table after counting A and then C (same hash). -/
def collTable2 : KmerCountTable := (count collHash collTable1 (['C'])).1

/-! Association-list lemmas (HashMap semantics). -/

theorem alookup_aerase_ne {β : Type} (m : List (Nat × β)) (k j : Nat) (h : j ≠ k) :
    alookup (aerase m k) j = alookup m j := by
  induction m with
  | nil => rfl
  | cons p rest ih =>
    by_cases hk : p.1 = k
    · simp [aerase, alookup, hk, Ne.symm h] at *
      exact ih
    · simp [aerase, alookup, hk] at *
      by_cases hj : p.1 = j
      · simp [hj, alookup]
      · simp [hj, alookup, ih]

theorem alookup_aerase_self {β : Type} (m : List (Nat × β)) (k : Nat) :
    alookup (aerase m k) k = none := by
  induction m with
  | nil => rfl
  | cons p rest ih =>
    by_cases hk : p.1 = k
    · simpa [aerase, hk] using ih
    · simpa [aerase, hk, alookup] using ih

theorem alookup_aset_self {β : Type} (m : List (Nat × β)) (k : Nat) (v : β) :
    alookup (aset m k v) k = some v := by
  simp [aset, alookup]

theorem alookup_aset_ne {β : Type} (m : List (Nat × β)) (k j : Nat) (v : β)
    (h : j ≠ k) : alookup (aset m k v) j = alookup m j := by
  simp [aset, alookup, Ne.symm h]
  exact alookup_aerase_ne m k j h

theorem alookup_eq_none_of_notmem {β : Type} (m : List (Nat × β)) (k : Nat)
    (h : ∀ p ∈ m, p.1 ≠ k) : alookup m k = none := by
  induction m with
  | nil => rfl
  | cons p rest ih =>
    simp only [alookup, h p (by simp), if_false]
    exact ih (fun q hq => h q (List.mem_cons_of_mem p hq))

theorem notmem_of_alookup_eq_none {β : Type} (m : List (Nat × β)) (k : Nat)
    (h : alookup m k = none) : ∀ p ∈ m, p.1 ≠ k := by
  induction m with
  | nil => simp
  | cons p rest ih =>
    intro q hq
    by_cases hk : p.1 = k
    · simp [alookup, hk] at h
    · simp only [alookup, hk, if_false] at h
      rcases List.mem_cons.mp hq with rfl | hq
      · exact hk
      · exact ih h q hq

theorem alookup_of_mem_nodup {β : Type} (m : List (Nat × β)) (p : Nat × β)
    (hnd : (akeys m).Nodup) (hp : p ∈ m) : alookup m p.1 = some p.2 := by
  induction m with
  | nil => simp at hp
  | cons q rest ih =>
    simp only [akeys, List.map_cons, List.nodup_cons] at hnd
    rcases List.mem_cons.mp hp with rfl | hp
    · simp [alookup]
    · have hne : q.1 ≠ p.1 := by
        intro he
        exact hnd.1 (he ▸ List.mem_map_of_mem Prod.fst hp)
      simp only [alookup, hne, if_false]
      exact ih hnd.2 hp

/-! Lemmas about countHash and the counting iteration. -/

theorem getHash_countHash (t : KmerCountTable) (h : Nat) :
    getHash (countHash t h).1 h = (getHash t h + 1) % u64Mod := by
  simp [getHash, countHash, alookupD, alookup_aset_self]

theorem countHash_ret (t : KmerCountTable) (h : Nat) :
    (countHash t h).2 = (getHash t h + 1) % u64Mod := rfl

theorem getHash_countHashIter (t : KmerCountTable) (h : Nat) (n : Nat)
    (h0 : getHash t h < u64Mod) :
    getHash (countHashIter t h n) h = (getHash t h + n) % u64Mod := by
  induction n with
  | zero => simp [countHashIter, Nat.mod_eq_of_lt h0]
  | succ n ih =>
    simp only [countHashIter, getHash_countHash, ih, Nat.mod_add_mod]
    exact congrArg (fun x => x % u64Mod) (Nat.add_assoc _ _ _)

/-- C4: on a freshly constructed table getHash h is 0 for every h; after
calling countHash h exactly n times (n below the u64 range) with no other
mutation, getHash h returns n, and the i-th call returned the new count i. -/
theorem C4_count_hash_n_times (k : Nat) (sk : Bool) (h n : Nat) (hn : n < u64Mod) :
    getHash (KmerCountTable.new k sk) h = 0 ∧
    getHash (countHashIter (KmerCountTable.new k sk) h n) h = n ∧
    ∀ i, i < n → (countHash (countHashIter (KmerCountTable.new k sk) h i) h).2 = i + 1 := by
  have hfresh : getHash (KmerCountTable.new k sk) h = 0 := rfl
  have h0 : getHash (KmerCountTable.new k sk) h < u64Mod := by
    rw [hfresh]; exact Nat.pos_of_ne_zero (by simp [u64Mod])
  refine ⟨hfresh, ?_, ?_⟩
  · rw [getHash_countHashIter _ _ _ h0, hfresh, Nat.zero_add, Nat.mod_eq_of_lt hn]
  · intro i hi
    rw [countHash_ret, getHash_countHashIter _ _ _ h0, hfresh, Nat.zero_add,
      Nat.mod_add_mod, Nat.mod_eq_of_lt (by omega)]

/-- Witness for C4 at k = 3, hash 7, n = 3. -/
theorem C4_count_hash_n_times_witness :
    3 < u64Mod ∧ getHash (countHashIter (KmerCountTable.new 3 false) 7 3) 7 = 3 :=
  ⟨by decide, (C4_count_hash_n_times 3 false 7 3 (by decide)).2.1⟩

/-! Lemmas about the two-pass cuts. -/

theorem mem_nodup_eq (m : List (Nat × Nat)) (hnd : (akeys m).Nodup)
    (p q : Nat × Nat) (hp : p ∈ m) (hq : q ∈ m) (hk : p.1 = q.1) : p = q := by
  have h1 := alookup_of_mem_nodup m p hnd hp
  have h2 := alookup_of_mem_nodup m q hnd hq
  rw [hk, h2] at h1
  cases p
  cases q
  simp only at hk h1 ⊢
  injection h1 with h1
  rw [hk, h1]

theorem foldl_aerase (ks : List Nat) (m : List (Nat × Nat)) :
    ks.foldl (fun acc h => aerase acc h) m = m.filter (fun p => decide (p.1 ∉ ks)) := by
  induction ks generalizing m with
  | nil => simp
  | cons k ks ih =>
    rw [List.foldl_cons, ih]
    simp only [aerase, List.filter_filter]
    apply List.filter_congr
    intro p _
    simp [List.mem_cons, not_or]
    rw [Bool.and_comm]

theorem cut_filter (m : List (Nat × Nat)) (hnd : (akeys m).Nodup) (f : Nat × Nat → Bool) :
    (m.filter fun p => decide (p.1 ∉ (m.filter f).map Prod.fst))
      = m.filter (fun p => !(f p)) := by
  apply List.filter_congr
  intro p hp
  by_cases hf : f p = true
  · have hm : p.1 ∈ (m.filter f).map Prod.fst :=
      List.mem_map_of_mem _ (List.mem_filter.mpr ⟨hp, hf⟩)
    simp [hm, hf]
  · have hm : p.1 ∉ (m.filter f).map Prod.fst := by
      intro hmem
      rcases List.mem_map.mp hmem with ⟨q, hq, hq1⟩
      rcases List.mem_filter.mp hq with ⟨hqm, hqf⟩
      rw [mem_nodup_eq m hnd q p hqm hp hq1] at hqf
      exact hf hqf
    simp [hm, Bool.eq_false_iff.mpr hf]

/-- C5: cutBelow removes exactly the entries with count strictly below the
bound, leaving entries at or above it untouched, and returns the number
removed; cutAbove symmetrically removes exactly the entries strictly above
its bound and returns the number removed. -/
theorem C5_cut_below_above (t : KmerCountTable) (b c : Nat)
    (hnd : (akeys t.counts).Nodup) :
    (mincut t b).1.counts = t.counts.filter (fun p => decide (b ≤ p.2)) ∧
    (mincut t b).2 = (t.counts.filter (fun p => decide (p.2 < b))).length ∧
    (maxcut t c).1.counts = t.counts.filter (fun p => decide (p.2 ≤ c)) ∧
    (maxcut t c).2 = (t.counts.filter (fun p => decide (c < p.2))).length := by
  refine ⟨?_, by simp [mincut], ?_, by simp [maxcut]⟩
  · simp only [mincut]
    rw [foldl_aerase, cut_filter t.counts hnd]
    apply List.filter_congr
    intro p _
    rw [← decide_not]
    simp [Nat.not_lt]
  · simp only [maxcut]
    rw [foldl_aerase, cut_filter t.counts hnd]
    apply List.filter_congr
    intro p _
    rw [← decide_not]
    simp [Nat.not_lt]

/-- Witness for C5 on a concrete three-entry table with bound 2 each way. -/
theorem C5_cut_below_above_witness :
    (akeys cutWitnessTable.counts).Nodup ∧
    (mincut cutWitnessTable 2).1.counts
      = cutWitnessTable.counts.filter (fun p => decide (2 ≤ p.2)) ∧
    (maxcut cutWitnessTable 2).2
      = (cutWitnessTable.counts.filter (fun p => decide (2 < p.2))).length :=
  ⟨by decide, (C5_cut_below_above cutWitnessTable 2 2 (by decide)).1,
    (C5_cut_below_above cutWitnessTable 2 2 (by decide)).2.2.2⟩

/-! Preservation of absence of the sentinel hash 0. -/

theorem consumeHashesLoop_preserves_zero (l : List (Except Unit Nat))
    (t : KmerCountTable) (n : Nat) (h0 : alookup t.counts 0 = none) :
    alookup (consumeHashesLoop t l n).1.counts 0 = none := by
  induction l generalizing t n with
  | nil => exact h0
  | cons x rest ih =>
    cases x with
    | error e => exact h0
    | ok h =>
      by_cases hz : h = 0
      · subst hz
        simpa [consumeHashesLoop] using ih t n h0
      · simp only [consumeHashesLoop, hz, if_false]
        apply ih
        simp only [countHash]
        rw [alookup_aset_ne _ _ _ _ (Ne.symm hz)]
        exact h0

theorem consumePairsLoop_preserves_zero (l : List (List Char × Nat))
    (t : KmerCountTable) (n : Nat) (h0 : alookup t.counts 0 = none) :
    alookup (consumePairsLoop t l n).1.counts 0 = none := by
  induction l generalizing t n with
  | nil => exact h0
  | cons x rest ih =>
    obtain ⟨km, h⟩ := x
    by_cases hz : h = 0
    · subst hz
      simpa [consumePairsLoop] using ih t n h0
    · simp only [consumePairsLoop, hz, ne_eq, not_false_eq_true, if_true]
      apply ih
      rw [alookup_aset_ne _ _ _ _ (Ne.symm hz)]
      exact h0

theorem consume_preserves_zero (H : List Char → Nat) (t : KmerCountTable)
    (seq : List Char) (skip : Bool) (h0 : alookup t.counts 0 = none) :
    alookup (consume H t seq skip).1.counts 0 = none := by
  unfold consume
  by_cases hs : t.store_kmers
  · simpa [hs] using
      consumePairsLoop_preserves_zero (kmersAndHashes H seq t.ksize skip) t 0 h0
  · simp only [hs, if_false]
    have hloop := consumeHashesLoop_preserves_zero (encStream H seq t.ksize skip) t 0 h0
    rcases hres : consumeHashesLoop t (encStream H seq t.ksize skip) 0 with ⟨t1, r⟩
    rw [hres] at hloop
    cases r <;> simpa using hloop

theorem addFold_preserves_zero (bs : List (Nat × Nat))
    (acc : List (Nat × Nat) × Nat × Nat) (h0 : alookup acc.1 0 = none)
    (hb : ∀ p ∈ bs, p.1 ≠ 0) :
    alookup (bs.foldl addStep acc).1 0 = none := by
  induction bs generalizing acc with
  | nil => exact h0
  | cons p rest ih =>
    simp only [List.foldl_cons]
    apply ih
    · simp only [addStep]
      rw [alookup_aset_ne _ _ _ _ (Ne.symm (hb p (by simp)))]
      exact h0
    · exact fun q hq => hb q (List.mem_cons_of_mem p hq)

theorem add_preserves_zero (t o : KmerCountTable) (h0 : alookup t.counts 0 = none)
    (ho : alookup o.counts 0 = none) : alookup (add t o).1.counts 0 = none := by
  unfold add
  by_cases hk : t.ksize ≠ o.ksize
  · simpa [hk] using h0
  · simp only [hk, if_false]
    exact addFold_preserves_zero o.counts (t.counts, 0, 0) h0
      (notmem_of_alookup_eq_none o.counts 0 ho)

theorem encStream_ok_mem (H : List Char → Nat) (s : List Char) (k : Nat)
    (force : Bool) (v : Nat) (hv : Except.ok v ∈ encStream H s k force) :
    (∃ w, v = H (canonList w)) ∨ (force = true ∧ v = 0) := by
  unfold encStream at hv
  rcases List.mem_map.mp hv with ⟨w, _, he⟩
  by_cases hvd : validDNA w = true
  · simp only [hvd, if_true] at he
    exact Or.inl ⟨w, (Except.ok.injEq _ _ ▸ he).symm⟩
  · simp only [hvd, if_false] at he
    cases force with
    | true =>
      simp only [if_true] at he
      exact Or.inr ⟨rfl, ((Except.ok.injEq _ _ ▸ he)).symm⟩
    | false => simp at he

theorem hashKmer_ok_ne_zero (H : List Char → Nat) (t : KmerCountTable)
    (kmer : List Char) (h : Nat) (hH : ∀ s, H s ≠ 0)
    (hok : hashKmer H t kmer = Except.ok h) : h ≠ 0 := by
  unfold hashKmer at hok
  by_cases hl : kmer.length % 256 ≠ t.ksize
  · simp [hl] at hok
  · simp only [hl, if_false] at hok
    rcases hh : (encStream H kmer t.ksize false).head? with _ | x
    · rw [hh] at hok
      simp at hok
    · rw [hh] at hok
      cases x with
      | error e => simp at hok
      | ok v =>
        simp only [Except.ok.injEq] at hok
        subst hok
        have hmem : Except.ok v ∈ encStream H kmer t.ksize false :=
          List.mem_of_mem_head? (Option.mem_def.mpr hh)
        rcases encStream_ok_mem H kmer t.ksize false v hmem with ⟨w, rfl⟩ | ⟨hf, _⟩
        · exact hH _
        · exact absurd hf (by simp)

theorem count_preserves_zero (H : List Char → Nat) (t : KmerCountTable)
    (kmer : List Char) (hH : ∀ s, H s ≠ 0) (h0 : alookup t.counts 0 = none) :
    alookup (count H t kmer).1.counts 0 = none := by
  unfold count
  by_cases hl : kmer.length % 256 ≠ t.ksize
  · simpa [hl] using h0
  · simp only [hl, if_false]
    rcases hres : hashKmer H t kmer with e | hv
    · simpa [hres] using h0
    · have hvz := hashKmer_ok_ne_zero H t kmer hv hH hres
      have hcz : alookup (countHash t hv).1.counts 0 = none := by
        simp only [countHash]
        rw [alookup_aset_ne _ _ _ _ (Ne.symm hvz)]
        exact h0
      simp only [hres]
      split
      · split <;> simpa using hcz
      · simpa using hcz

/-- C2 counterexample: the claim fails on count_hash itself, which performs no
sentinel check: calling countHash 0 on a fresh table creates an entry for
hash 0 in counts. -/
theorem C2_counterexample :
    alookup ((countHash (KmerCountTable.new 3 false) 0).1.counts) 0 = some 1 := by
  decide

/-- C2 (amended): absence of the sentinel hash 0 from counts is preserved by
consumeSequence unconditionally (zero-hash windows are skipped), by add when
both operands satisfy it, by countHash at any nonzero hash, and by countKmer
whenever the black-box hash function never returns 0 on a k-mer (the
documented boundary contract); countHash performs no sentinel check, so
countHash 0 itself violates the invariant. -/
theorem C2_zero_hash_amended :
    (∀ H t seq skip, alookup t.counts 0 = none →
      alookup (consume H t seq skip).1.counts 0 = none) ∧
    (∀ t o, alookup t.counts 0 = none → alookup o.counts 0 = none →
      alookup (add t o).1.counts 0 = none) ∧
    (∀ t h, h ≠ 0 → alookup t.counts 0 = none →
      alookup (countHash t h).1.counts 0 = none) ∧
    (∀ H t kmer, (∀ s, H s ≠ 0) → alookup t.counts 0 = none →
      alookup (count H t kmer).1.counts 0 = none) := by
  refine ⟨consume_preserves_zero, add_preserves_zero, ?_, ?_⟩
  · intro t h hz h0
    simp only [countHash]
    rw [alookup_aset_ne _ _ _ _ (Ne.symm hz)]
    exact h0
  · intro H t kmer hH h0
    exact count_preserves_zero H t kmer hH h0

/-- Witness for the amended C2: consuming a concrete sequence on a fresh
table keeps hash 0 absent. -/
theorem C2_zero_hash_amended_witness :
    alookup (consume (fun _ => 1) (KmerCountTable.new 3 false)
      ("ACGT".data) true).1.counts 0 = none :=
  C2_zero_hash_amended.1 (fun _ => 1) (KmerCountTable.new 3 false) ("ACGT".data) true rfl

/-! Character and reverse-complement algebra. -/

theorem compl_compl (c : Char) (h : isDNA c = true) : compl (compl c) = c := by
  simp only [isDNA, Bool.or_eq_true, decide_eq_true_eq, or_assoc] at h
  rcases h with h | h | h | h <;> subst h <;> decide

theorem isDNA_compl (c : Char) (h : isDNA c = true) : isDNA (compl c) = true := by
  simp only [isDNA, Bool.or_eq_true, decide_eq_true_eq, or_assoc] at h
  rcases h with h | h | h | h <;> subst h <;> decide

theorem toUpper_isDNA (c : Char) (h : isDNA c = true) : c.toUpper = c := by
  simp only [isDNA, Bool.or_eq_true, decide_eq_true_eq, or_assoc] at h
  rcases h with h | h | h | h <;> subst h <;> decide

theorem length_upperL (s : List Char) : (upperL s).length = s.length := by simp [upperL]

theorem length_rcL (s : List Char) : (rcL s).length = s.length := by simp [rcL]

theorem validDNA_rcL (s : List Char) (h : validDNA s = true) :
    validDNA (rcL s) = true := by
  simp only [validDNA, rcL, List.all_map, List.all_reverse, List.all_eq_true] at h ⊢
  intro c hc
  exact isDNA_compl c (h c hc)

theorem rcL_rcL (s : List Char) (h : validDNA s = true) : rcL (rcL s) = s := by
  simp only [validDNA, List.all_eq_true] at h
  simp only [rcL, List.map_reverse, List.reverse_reverse, List.map_map]
  calc s.map (compl ∘ compl) = s.map id := by
        apply List.map_congr_left
        intro c hc
        exact compl_compl c (h c hc)
    _ = s := List.map_id s

theorem upperL_of_validDNA (s : List Char) (h : validDNA s = true) : upperL s = s := by
  simp only [validDNA, List.all_eq_true] at h
  simp only [upperL]
  calc s.map Char.toUpper = s.map id := by
        apply List.map_congr_left
        intro c hc
        exact toUpper_isDNA c (h c hc)
    _ = s := List.map_id s

theorem lexLe_total (a b : List Char) (h : lexLe a b = false) : lexLe b a = true := by
  induction a generalizing b with
  | nil => simp [lexLe] at h
  | cons x as ih =>
    cases b with
    | nil => simp [lexLe]
    | cons y bs =>
      simp only [lexLe] at h ⊢
      by_cases hxy : x < y
      · simp [hxy] at h
      · by_cases hyx : y < x
        · simp [hyx]
        · simp only [hxy, hyx, if_false] at h
          simp [hxy, hyx, ih bs h]

theorem lexLe_antisymm (a b : List Char) (h1 : lexLe a b = true)
    (h2 : lexLe b a = true) : a = b := by
  induction a generalizing b with
  | nil =>
    cases b with
    | nil => rfl
    | cons y bs => simp [lexLe] at h2
  | cons x as ih =>
    cases b with
    | nil => simp [lexLe] at h1
    | cons y bs =>
      simp only [lexLe] at h1 h2
      by_cases hxy : x < y
      · have hyx : ¬ y < x := Char.lt_asymm hxy
        simp [hyx, hxy] at h2
      · by_cases hyx : y < x
        · simp [hxy, hyx] at h1
        · have hx : x = y := Char.le_antisymm (Char.not_lt.mp hyx) (Char.not_lt.mp hxy)
          simp only [hxy, hyx, if_false] at h1 h2
          rw [hx, ih bs h1 h2]

/-- C3: canonicalization is invariant under reverse complement: for a k-mer
of the table's length over ACGT (case-insensitive), canon of the k-mer equals
canon of its (case-normalized) reverse complement, and both succeed. -/
theorem C3_canon_revcomp_invariant (t : KmerCountTable) (x : List Char)
    (hlen : x.length = t.ksize) (hv : validDNA (upperL x) = true) :
    canon t x = canon t (rcL (upperL x)) ∧ ∃ c, canon t x = Except.ok c := by
  have hlen2 : (rcL (upperL x)).length = t.ksize := by
    rw [length_rcL, length_upperL, hlen]
  have hup : upperL (rcL (upperL x)) = rcL (upperL x) :=
    upperL_of_validDNA _ (validDNA_rcL _ hv)
  have hv2 : validDNA (rcL (upperL x)) = true := validDNA_rcL _ hv
  have hrr : rcL (rcL (upperL x)) = upperL x := rcL_rcL _ hv
  have hc1 : canon t x =
      (if lexLe (upperL x) (rcL (upperL x)) then Except.ok (upperL x)
        else Except.ok (rcL (upperL x))) := by
    simp [canon, hlen, hv]
  have hc2 : canon t (rcL (upperL x)) =
      (if lexLe (rcL (upperL x)) (upperL x) then Except.ok (rcL (upperL x))
        else Except.ok (upperL x)) := by
    simp [canon, hlen2, hup, hv2, hrr]
  constructor
  · rw [hc1, hc2]
    by_cases hab : lexLe (upperL x) (rcL (upperL x)) = true
    · by_cases hba : lexLe (rcL (upperL x)) (upperL x) = true
      · rw [if_pos hab, if_pos hba]
        exact congrArg Except.ok (lexLe_antisymm _ _ hab hba)
      · rw [if_pos hab, if_neg (by simp [hba])]
    · have hba := lexLe_total _ _ (Bool.eq_false_iff.mpr hab)
      rw [if_neg (by simp [hab]), if_pos hba]
  · rw [hc1]
    by_cases hab : lexLe (upperL x) (rcL (upperL x)) = true
    · exact ⟨upperL x, by rw [if_pos hab]⟩
    · exact ⟨rcL (upperL x), by rw [if_neg (by simp [hab])]⟩

/-- Witness for C3 on the concrete k-mer ACG with k = 3. -/
theorem C3_canon_revcomp_invariant_witness :
    canon (KmerCountTable.new 3 false) ("ACG".data)
      = canon (KmerCountTable.new 3 false) (rcL (upperL ("ACG".data))) :=
  (C3_canon_revcomp_invariant (KmerCountTable.new 3 false) ("ACG".data)
    (by decide) (by decide)).1

/-! Histogram lemmas. -/

theorem freqCount_countP (m : List (Nat × Nat)) (hnd : (akeys m).Nodup) (v : Nat) :
    (m.map Prod.snd).countP (fun c => decide (c = v))
      = (m.map Prod.fst).countP (fun h => decide (alookup m h = some v)) := by
  induction m with
  | nil => rfl
  | cons p rest ih =>
    simp only [akeys, List.map_cons, List.nodup_cons] at hnd
    simp only [List.map_cons, List.countP_cons]
    have hhead : (decide (alookup (p :: rest) p.1 = some v) : Bool) = decide (p.2 = v) := by
      simp [alookup]
    have htail : (rest.map Prod.fst).countP (fun h => decide (alookup (p :: rest) h = some v))
        = (rest.map Prod.fst).countP (fun h => decide (alookup rest h = some v)) := by
      apply List.countP_congr
      intro h hh
      have hne : p.1 ≠ h := fun he => hnd.1 (he ▸ hh)
      simp [alookup, hne]
    rw [hhead, htail, ih hnd.2]

theorem freqCount_eq_keys (t : KmerCountTable) (hnd : (akeys t.counts).Nodup) (v : Nat) :
    freqCount t v
      = ((akeys t.counts).filter (fun h => decide (alookup t.counts h = some v))).length := by
  rw [freqCount, ← List.countP_eq_length_filter, ← List.countP_eq_length_filter]
  exact freqCount_countP t.counts hnd v

theorem filterMap_if_eq_filter (l : List Nat) (g : Nat → Nat) :
    (l.filterMap (fun v => if g v = 0 then none else some (v, g v)))
      = (l.map (fun v => (v, g v))).filter (fun p => decide (p.2 ≠ 0)) := by
  induction l with
  | nil => rfl
  | cons a l ih =>
    simp only [List.filterMap_cons, List.map_cons, List.filter_cons]
    by_cases hg : g a = 0 <;> simp [hg, ih]

/-- C7: the zero-gap histogram has one (value, tally) pair for every count
value from 0 to the maximum in ascending order, the tally being the number of
distinct hashes whose stored count equals that value; without zero gaps only
the observed count values remain (ascending); and on a table with counts
1, 1, 2 the zero-gap histogram is [(0,0),(1,2),(2,1)]. -/
theorem C7_histogram (t : KmerCountTable) (hnd : (akeys t.counts).Nodup) :
    histo t true = (List.range (tmax t + 1)).map
      (fun v => (v,
        ((akeys t.counts).filter (fun h => decide (alookup t.counts h = some v))).length)) ∧
    histo t false = (histo t true).filter (fun p => decide (p.2 ≠ 0)) ∧
    histo histoWitnessTable true = [(0, 0), (1, 2), (2, 1)] := by
  refine ⟨?_, ?_, by decide⟩
  · simp only [histo, if_true]
    apply List.map_congr_left
    intro v _
    rw [freqCount_eq_keys t hnd v]
  · simp only [histo, if_true]
    exact filterMap_if_eq_filter (List.range (tmax t + 1)) (freqCount t)

/-- Witness for C7 on the concrete three-hash table. -/
theorem C7_histogram_witness :
    (akeys histoWitnessTable.counts).Nodup ∧
    histo histoWitnessTable false
      = (histo histoWitnessTable true).filter (fun p => decide (p.2 ≠ 0)) :=
  ⟨by decide, (C7_histogram histoWitnessTable (by decide)).2.1⟩

/-- C6: jaccard is intersection size over union size on the key sets: it is
exactly 1 when both tables are empty (the convention for an empty union), 0
when the first table is non-empty and the second empty, and the exact ratio
whenever the union is non-empty. -/
theorem C6_jaccard (a b : KmerCountTable) :
    (a.counts = [] → b.counts = [] → jaccard a b = 1) ∧
    (a.counts ≠ [] → b.counts = [] → jaccard a b = 0) ∧
    ((unionF a b).card ≠ 0 →
      jaccard a b = ((interF a b).card : ℚ) / ((unionF a b).card : ℚ)) := by
  refine ⟨?_, ?_, ?_⟩
  · intro ha hb
    simp [jaccard, unionF, hashSetF, akeys, ha, hb]
  · intro ha hb
    have hmem : ∃ x, x ∈ hashSetF a := by
      cases hc : a.counts with
      | nil => exact absurd hc ha
      | cons p rest => exact ⟨p.1, by simp [hashSetF, akeys, hc]⟩
    obtain ⟨x, hx⟩ := hmem
    have hbe : hashSetF b = ∅ := by simp [hashSetF, akeys, hb]
    have hu : (unionF a b).card ≠ 0 := by
      simp only [unionF, hbe, Finset.union_empty]
      exact Finset.card_ne_zero_of_mem hx
    have hi : (interF a b).card = 0 := by simp [interF, hbe]
    rw [jaccard, if_neg hu, hi]
    simp
  · intro hu
    rw [jaccard, if_neg hu]

/-- Witness for C6: a one-entry table against an empty table gives 0, and two
empty tables give 1. -/
theorem C6_jaccard_witness :
    jaccard jaccardWitnessA (KmerCountTable.new 3 false) = 0 ∧
    jaccard (KmerCountTable.new 3 false) (KmerCountTable.new 3 false) = 1 :=
  ⟨(C6_jaccard jaccardWitnessA (KmerCountTable.new 3 false)).2.1 (by decide) rfl,
    (C6_jaccard (KmerCountTable.new 3 false) (KmerCountTable.new 3 false)).1 rfl rfl⟩

/-! Merge-engine fold lemmas. -/

theorem addFold_lookup_notmem (bs : List (Nat × Nat)) :
    ∀ acc : List (Nat × Nat) × Nat × Nat, ∀ h, h ∉ akeys bs →
      alookup (bs.foldl addStep acc).1 h = alookup acc.1 h := by
  induction bs with
  | nil => intro acc h _; rfl
  | cons p rest ih =>
    intro acc h hh
    simp only [akeys, List.map_cons, List.mem_cons, not_or] at hh
    rw [List.foldl_cons, ih _ h (by simpa [akeys] using hh.2)]
    simp only [addStep]
    exact alookup_aset_ne _ _ _ _ hh.1

theorem addFold_lookup_mem (bs : List (Nat × Nat)) (hnd : (akeys bs).Nodup) :
    ∀ acc : List (Nat × Nat) × Nat × Nat, ∀ p ∈ bs,
      alookup (bs.foldl addStep acc).1 p.1
        = some ((alookupD acc.1 p.1 0 + p.2) % u64Mod) := by
  induction bs with
  | nil => intro acc p hp; simp at hp
  | cons q rest ih =>
    intro acc p hp
    simp only [akeys, List.map_cons, List.nodup_cons] at hnd
    rw [List.foldl_cons]
    rcases List.mem_cons.mp hp with rfl | hp
    · rw [addFold_lookup_notmem rest _ p.1 (by simpa [akeys] using hnd.1)]
      simp only [addStep]
      exact alookup_aset_self _ _ _
    · have hne : p.1 ≠ q.1 := fun he => hnd.1 (he ▸ List.mem_map_of_mem Prod.fst hp)
      rw [ih hnd.2 _ p hp]
      simp only [addStep, alookupD]
      rw [alookup_aset_ne _ _ _ _ hne]

theorem addFold_newkeys (bs : List (Nat × Nat)) (hnd : (akeys bs).Nodup) :
    ∀ m0 a0 n0, n0 < u64Mod →
      (bs.foldl addStep (m0, a0, n0)).2.2
        = (n0 + (bs.filter (fun p => decide (alookupD m0 p.1 0 = 0))).length) % u64Mod := by
  induction bs with
  | nil =>
    intro m0 a0 n0 hn0
    simp [Nat.mod_eq_of_lt hn0]
  | cons q rest ih =>
    intro m0 a0 n0 hn0
    simp only [akeys, List.map_cons, List.nodup_cons] at hnd
    rw [List.foldl_cons]
    have hMpos : 0 < u64Mod := by decide
    have hfilter : ∀ v : Nat,
        rest.filter (fun p => decide (alookupD (aset m0 q.1 v) p.1 0 = 0))
          = rest.filter (fun p => decide (alookupD m0 p.1 0 = 0)) := by
      intro v
      apply List.filter_congr
      intro p hp
      have hne : p.1 ≠ q.1 := fun he => hnd.1 (he ▸ List.mem_map_of_mem Prod.fst hp)
      simp only [alookupD, alookup_aset_ne _ _ _ _ hne]
    by_cases hc : alookupD m0 q.1 0 = 0
    · have hstep : addStep (m0, a0, n0) q
          = (aset m0 q.1 ((alookupD m0 q.1 0 + q.2) % u64Mod),
              (a0 + q.2) % u64Mod, (n0 + 1) % u64Mod) := by
        simp [addStep, hc]
      rw [hstep, ih hnd.2 _ _ _ (Nat.mod_lt _ hMpos), hfilter, Nat.mod_add_mod]
      rw [List.filter_cons_of_pos (by simpa using hc)]
      simp only [List.length_cons]
      exact congrArg (fun x => x % u64Mod) (by omega)
    · have hstep : addStep (m0, a0, n0) q
          = (aset m0 q.1 ((alookupD m0 q.1 0 + q.2) % u64Mod),
              (a0 + q.2) % u64Mod, n0) := by
        simp [addStep, hc]
      rw [hstep, ih hnd.2 _ _ _ hn0, hfilter]
      rw [List.filter_cons_of_neg (by simpa using hc)]

/-- Helper: the result of add on two tables with equal ksize, in closed form. -/
theorem add_ok (t o : KmerCountTable) (hk : t.ksize = o.ksize) :
    add t o = ({ t with counts := (o.counts.foldl addStep (t.counts, 0, 0)).1
                        consumed := (t.consumed + o.consumed) % u64Mod
                        hash_to_kmer :=
                          if t.store_kmers && o.store_kmers then
                            some ((o.hash_to_kmer.getD []).foldl
                              (fun m p => orInsert m p.1 p.2) (t.hash_to_kmer.getD []))
                          else t.hash_to_kmer },
      Except.ok ((o.counts.foldl addStep (t.counts, 0, 0)).2.1,
        (o.counts.foldl addStep (t.counts, 0, 0)).2.2)) := by
  have hkeq : ¬ t.ksize ≠ o.ksize := by simpa using hk
  simp [add, hkeq]

/-- C8: with equal k, merging b into a twice leaves every hash of b at its
original count in a plus twice its count in b, and the second call reports 0
newly created keys.  (Hypotheses: b is a well-formed table, so its stored
counts are positive and its keys distinct, and no u64 overflow occurs.) -/
theorem C8_add_twice (a b : KmerCountTable) (hk : a.ksize = b.ksize)
    (hnd : (akeys b.counts).Nodup)
    (hpos : ∀ p ∈ b.counts, 0 < p.2)
    (hbound : ∀ p ∈ b.counts, getHash a p.1 + 2 * p.2 < u64Mod) :
    (∃ r1, (add a b).2 = Except.ok r1) ∧
    (∃ tot, (add (add a b).1 b).2 = Except.ok (tot, 0)) ∧
    (∀ p ∈ b.counts, getHash (add (add a b).1 b).1 p.1 = getHash a p.1 + 2 * p.2) := by
  have hA := add_ok a b hk
  have ha1counts : (add a b).1.counts = (b.counts.foldl addStep (a.counts, 0, 0)).1 := by
    rw [hA]
  have ha1ksize : (add a b).1.ksize = a.ksize := by rw [hA]
  have hk2 : (add a b).1.ksize = b.ksize := by rw [ha1ksize, hk]
  have hB := add_ok (add a b).1 b hk2
  have hget1 : ∀ p ∈ b.counts, getHash (add a b).1 p.1 = getHash a p.1 + p.2 := by
    intro p hp
    have hb := hbound p hp
    have hp2 := hpos p hp
    simp only [getHash, alookupD, ha1counts]
    rw [addFold_lookup_mem b.counts hnd _ p hp]
    simp only [Option.getD_some, alookupD]
    simp only [getHash, alookupD] at hb
    exact Nat.mod_eq_of_lt (by omega)
  have hnk : (b.counts.foldl addStep ((add a b).1.counts, 0, 0)).2.2 = 0 := by
    rw [addFold_newkeys b.counts hnd _ 0 0 (by decide)]
    have hempty : b.counts.filter
        (fun p => decide (alookupD (add a b).1.counts p.1 0 = 0)) = [] := by
      rw [List.filter_eq_nil_iff]
      intro p hp
      have h1 := hget1 p hp
      have hp2 := hpos p hp
      simp only [getHash] at h1
      simp [h1]
      omega
    rw [hempty]
    rfl
  refine ⟨⟨_, by rw [hA]⟩, ?_, ?_⟩
  · refine ⟨(b.counts.foldl addStep ((add a b).1.counts, 0, 0)).2.1, ?_⟩
    rw [hB]
    exact congrArg Except.ok (Prod.ext rfl hnk)
  · intro p hp
    have hb := hbound p hp
    have hp2 := hpos p hp
    have h1 := hget1 p hp
    have ha2counts : (add (add a b).1 b).1.counts
        = (b.counts.foldl addStep ((add a b).1.counts, 0, 0)).1 := by
      rw [hB]
    simp only [getHash, alookupD, ha2counts]
    rw [addFold_lookup_mem b.counts hnd _ p hp]
    simp only [Option.getD_some]
    simp only [getHash] at h1
    rw [show alookupD (add a b).1.counts p.1 0 = getHash a p.1 + p.2 from h1]
    rw [show getHash a p.1 + p.2 + p.2 = getHash a p.1 + 2 * p.2 by omega]
    exact Nat.mod_eq_of_lt hb

/-- Witness for C8 on two concrete tables sharing hash 5. -/
theorem C8_add_twice_witness :
    (∃ tot, (add (add addWitnessA addWitnessB).1 addWitnessB).2 = Except.ok (tot, 0)) ∧
    getHash (add (add addWitnessA addWitnessB).1 addWitnessB).1 5
      = getHash addWitnessA 5 + 2 * 2 :=
  ⟨(C8_add_twice addWitnessA addWitnessB rfl (by decide) (by decide) (by decide)).2.1,
    (C8_add_twice addWitnessA addWitnessB rfl (by decide) (by decide) (by decide)).2.2
      (5, 2) (by decide)⟩

/-- C10: dump_kmers emits only pairs whose hash is currently present in the
counts map: every emitted (kmer, count) pair arises from a hash-to-kmer entry
whose hash holds exactly that count in counts, so an entry whose hash was
removed from counts (or never counted) never appears in the output. -/
theorem C10_dump_kmers_only_counted (t : KmerCountTable) (sc sk : Bool)
    (m : List (Nat × List Char)) (out : List (List Char × Nat))
    (hm : t.hash_to_kmer = some m)
    (hd : dumpKmers t sc sk = Except.ok out) :
    ∀ p ∈ out, ∃ h, (h, p.1) ∈ m ∧ alookup t.counts h = some p.2 := by
  intro p hp
  simp only [dumpKmers, hm, Option.getD_some] at hd
  by_cases hs : t.store_kmers = false
  · rw [if_pos hs] at hd
    exact absurd hd (by simp)
  · rw [if_neg hs] at hd
    by_cases hsc : (sc && sk) = true
    · rw [if_pos hsc] at hd
      exact absurd hd (by simp)
    · rw [if_neg hsc] at hd
      have hmem : p ∈ m.filterMap
          (fun q => (alookup t.counts q.1).map (fun c => (q.2, c))) := by
        by_cases hsk : sk = true
        · rw [if_pos hsk] at hd
          injection hd with hd
          rw [← hd] at hp
          exact List.mem_mergeSort.mp hp
        · rw [if_neg hsk] at hd
          by_cases hsc2 : sc = true
          · rw [if_pos hsc2] at hd
            injection hd with hd
            rw [← hd] at hp
            exact List.mem_mergeSort.mp hp
          · rw [if_neg hsc2] at hd
            injection hd with hd
            rw [← hd] at hp
            exact hp
      rcases List.mem_filterMap.mp hmem with ⟨q, hq, he⟩
      rcases Option.map_eq_some'.mp he with ⟨c, hc, hqc⟩
      refine ⟨q.1, ?_, ?_⟩
      · rw [show p.1 = q.2 from (congrArg Prod.fst hqc).symm]
        simpa using hq
      · rw [show p.2 = c from (congrArg Prod.snd hqc).symm]
        exact hc

/-- Witness for C10: a table with a stale k-mer map entry dumps only the
counted pair. -/
theorem C10_dump_kmers_only_counted_witness :
    ∃ h, (h, ("AA".data : List Char)) ∈ [(5, "AA".data), (9, "CC".data)] ∧
      alookup dumpWitnessTable.counts h = some 2 :=
  C10_dump_kmers_only_counted dumpWitnessTable false false
    [(5, "AA".data), (9, "CC".data)] [(("AA".data : List Char), (2 : Nat))] rfl rfl
    (("AA".data : List Char), (2 : Nat)) (by decide)

/-! Uppercasing, slicing and ordering lemmas for the sequence extractor. -/

theorem toUpper_eq (c : Char) :
    Char.toUpper c = if c.toNat ≥ 97 ∧ c.toNat ≤ 122 then Char.ofNat (c.toNat - 32) else c := rfl

theorem toNat_ofNat_valid (m : Nat) (hm : m.isValidChar) : (Char.ofNat m).toNat = m := by
  unfold Char.ofNat
  rw [dif_pos hm]
  rfl

theorem toUpper_idem (c : Char) : c.toUpper.toUpper = c.toUpper := by
  rw [toUpper_eq c]
  by_cases h : c.toNat ≥ 97 ∧ c.toNat ≤ 122
  · rw [if_pos h]
    have hv : (Char.ofNat (c.toNat - 32)).toNat = c.toNat - 32 :=
      toNat_ofNat_valid _ (Or.inl (by omega))
    rw [toUpper_eq, hv, if_neg (by omega)]
  · rw [if_neg h, toUpper_eq, if_neg h]

theorem upperL_idem (s : List Char) : upperL (upperL s) = upperL s := by
  simp only [upperL, List.map_map]
  apply List.map_congr_left
  intro c _
  exact toUpper_idem c

theorem slice_rc (s : List Char) (k pos : Nat) (hpk : pos + k ≤ s.length) :
    ((rcL s).drop (s.length - k - pos)).take k = rcL ((s.drop pos).take k) := by
  simp only [rcL, ← List.map_drop, ← List.map_take]
  have h1 : s.reverse.drop (s.length - k - pos) = (s.take (pos + k)).reverse := by
    rw [List.drop_reverse, show s.length - (s.length - k - pos) = pos + k from by omega]
  rw [h1, List.take_reverse,
    show (s.take (pos + k)).length - k = pos from by rw [List.length_take]; omega]
  exact congrArg (fun l => List.map compl l) (congrArg List.reverse (List.take_drop pos k s).symm)

theorem lexLe_of_lexLt (a b : List Char) (h : lexLt a b = true) : lexLe a b = true := by
  induction a generalizing b with
  | nil =>
    cases b with
    | nil => simp [lexLt] at h
    | cons y bs => simp [lexLe]
  | cons x as ih =>
    cases b with
    | nil => simp [lexLt] at h
    | cons y bs =>
      simp only [lexLt] at h
      simp only [lexLe]
      by_cases hxy : x < y
      · simp [hxy]
      · by_cases hyx : y < x
        · simp [hxy, hyx] at h
        · simp only [hxy, hyx, if_false] at h ⊢
          exact ih bs h

theorem eq_of_lexLe_not_lexLt (a b : List Char) (h1 : lexLe a b = true)
    (h2 : lexLt a b = false) : a = b := by
  induction a generalizing b with
  | nil =>
    cases b with
    | nil => rfl
    | cons y bs => simp [lexLt] at h2
  | cons x as ih =>
    cases b with
    | nil => simp [lexLe] at h1
    | cons y bs =>
      simp only [lexLe] at h1
      simp only [lexLt] at h2
      by_cases hxy : x < y
      · simp [hxy] at h2
      · by_cases hyx : y < x
        · simp [hxy, hyx] at h1
        · have hx : x = y := Char.le_antisymm (Char.not_lt.mp hyx) (Char.not_lt.mp hxy)
          simp only [hxy, hyx, if_false] at h1 h2
          rw [hx, ih bs h1 h2]

theorem minLt_eq_minLe (a b : List Char) :
    (if lexLt a b then a else b) = (if lexLe a b then a else b) := by
  by_cases hlt : lexLt a b = true
  · rw [if_pos hlt, if_pos (lexLe_of_lexLt a b hlt)]
  · rw [if_neg (by simp [hlt])]
    by_cases hle : lexLe a b = true
    · rw [if_pos hle]
      exact (eq_of_lexLe_not_lexLt a b hle (Bool.eq_false_iff.mpr hlt)).symm
    · rw [if_neg (by simp [hle])]

theorem windows_getElem (s : List Char) (k pos : Nat) (hp : pos < s.length + 1 - k) :
    (windows s k)[pos]? = some ((s.drop pos).take k) := by
  simp [windows, List.getElem?_map, List.getElem?_range, hp]

theorem encStream_true_elem (H : List Char → Nat) (w : List Char) :
    (if validDNA w then Except.ok (H (canonList w))
      else if (true : Bool) then Except.ok 0 else Except.error ())
      = (Except.ok (winHash H w) : Except Unit Nat) := by
  by_cases h : validDNA w = true <;> simp [winHash, h]

theorem encStream_true_eq (H : List Char → Nat) (s : List Char) (k : Nat) :
    encStream H s k true = (windows (upperL s) k).map (fun w => Except.ok (winHash H w)) := by
  unfold encStream
  apply List.map_congr_left
  intro w _
  exact encStream_true_elem H w

theorem kmersAndHashes_clean (H : List Char → Nat) (seq : List Char) (k : Nat)
    (skip : Bool) :
    kmersAndHashes H seq k skip = (windows (upperL seq) k).filterMap (fun w =>
      if winHash H w ≠ 0 then some (canonList w, winHash H w)
      else if skip then none else some ([], 0)) := by
  simp only [kmersAndHashes, encStream_true_eq, upperL_idem]
  rw [show windows (upperL seq) k
      = (List.range ((upperL seq).length + 1 - k)).map
          (fun i => (((upperL seq)).drop i).take k) from rfl]
  rw [List.filterMap_map]
  apply List.filterMap_congr
  intro pos hpos
  have hp : pos < (upperL seq).length + 1 - k := List.mem_range.mp hpos
  have hpk : pos + k ≤ (upperL seq).length := by omega
  rw [List.getElem?_map, List.getElem?_map]
  rw [show (List.range ((upperL seq).length + 1 - k))[pos]? = some pos by simp [hp]]
  rw [show Option.map (fun w => (Except.ok (winHash H w) : Except Unit Nat))
      (Option.map (fun i => (((upperL seq)).drop i).take k) (some pos))
      = some (Except.ok (winHash H ((((upperL seq)).drop pos).take k))) from rfl]
  rw [show (upperL seq).length + 1 - k - pos - 1 = (upperL seq).length - k - pos from by omega]
  rw [slice_rc _ _ _ hpk, minLt_eq_minLe]
  simp only [Function.comp, canonList]

/-! Consume loop lemmas. -/

theorem consumeHashesLoop_consumed (l : List (Except Unit Nat)) :
    ∀ t n, (consumeHashesLoop t l n).1.consumed = t.consumed := by
  induction l with
  | nil => intro t n; rfl
  | cons x rest ih =>
    intro t n
    cases x with
    | error e => rfl
    | ok h =>
      by_cases hz : h = 0
      · simpa [consumeHashesLoop, hz] using ih t n
      · simp only [consumeHashesLoop, hz, if_false]
        rw [ih]
        rfl

theorem consumePairsLoop_consumed (l : List (List Char × Nat)) :
    ∀ t n, (consumePairsLoop t l n).1.consumed = t.consumed := by
  induction l with
  | nil => intro t n; rfl
  | cons x rest ih =>
    intro t n
    obtain ⟨km, h⟩ := x
    by_cases hz : h ≠ 0
    · simp only [consumePairsLoop]
      rw [if_pos hz, ih]
    · simp only [consumePairsLoop]
      rw [if_neg hz]
      exact ih t n

theorem consumeHashesLoop_count (l : List (Except Unit Nat)) :
    ∀ t n t1 r, consumeHashesLoop t l n = (t1, Except.ok r) →
      r = n + l.countP okNonzero := by
  induction l with
  | nil =>
    intro t n t1 r hc
    injection hc with h1 h2
    injection h2 with h2
    simp [← h2]
  | cons x rest ih =>
    intro t n t1 r hc
    cases x with
    | error e =>
      simp only [consumeHashesLoop] at hc
      injection hc with h1 h2
      exact absurd h2 (by simp)
    | ok h =>
      by_cases hz : h = 0
      · subst hz
        simp only [consumeHashesLoop, if_true] at hc
        rw [ih _ _ _ _ hc]
        simp [okNonzero, List.countP_cons]
      · simp only [consumeHashesLoop, hz, if_false] at hc
        rw [ih _ _ _ _ hc, List.countP_cons]
        have hok : okNonzero (Except.ok h) = true := by simp [okNonzero, hz]
        rw [hok, if_pos rfl]
        omega


theorem consumePairsLoop_count (l : List (List Char × Nat)) :
    ∀ t n, (consumePairsLoop t l n).2 = n + l.countP (fun p => decide (p.2 ≠ 0)) := by
  induction l with
  | nil => intro t n; simp [consumePairsLoop]
  | cons x rest ih =>
    intro t n
    obtain ⟨km, h⟩ := x
    by_cases hz : h ≠ 0
    · simp only [consumePairsLoop]
      rw [if_pos hz, ih, List.countP_cons]
      have hok : (decide ((km, h).2 ≠ 0)) = true := by simpa using hz
      rw [hok, if_pos rfl]
      omega
    · simp only [consumePairsLoop]
      rw [if_neg hz, ih, List.countP_cons]
      have hok : (decide ((km, h).2 ≠ 0)) = false := by simpa using hz
      rw [hok, if_neg (by simp)]
      omega

theorem consumeHashesLoop_ok (l : List (Except Unit Nat))
    (hl : ∀ x ∈ l, ∀ e, x ≠ Except.error e) :
    ∀ t n, ∃ t1 r, consumeHashesLoop t l n = (t1, Except.ok r) := by
  induction l with
  | nil => intro t n; exact ⟨t, n, rfl⟩
  | cons x rest ih =>
    intro t n
    cases x with
    | error e => exact absurd rfl (hl (Except.error e) (by simp) e)
    | ok h =>
      have hrest : ∀ x ∈ rest, ∀ e, x ≠ Except.error e :=
        fun x hx => hl x (List.mem_cons_of_mem _ hx)
      by_cases hz : h = 0
      · subst hz
        obtain ⟨t1, r, hr⟩ := ih hrest t n
        exact ⟨t1, r, by simpa [consumeHashesLoop] using hr⟩
      · obtain ⟨t1, r, hr⟩ := ih hrest (countHash t h).1 (n + 1)
        refine ⟨t1, r, ?_⟩
        simp only [consumeHashesLoop, hz, if_false]
        exact hr

theorem encStream_true_no_error (H : List Char → Nat) (s : List Char) (k : Nat) :
    ∀ x ∈ encStream H s k true, ∀ e, x ≠ Except.error e := by
  intro x hx e
  rw [encStream_true_eq] at hx
  rcases List.mem_map.mp hx with ⟨w, _, rfl⟩
  simp

theorem countP_encStream (H : List Char → Nat) (s : List Char) (k : Nat) (force : Bool) :
    (encStream H s k force).countP okNonzero
      = (windows (upperL s) k).countP (fun w => decide (winHash H w ≠ 0)) := by
  unfold encStream
  rw [List.countP_map]
  apply List.countP_congr
  intro w _
  simp only [Function.comp]
  by_cases hv : validDNA w = true
  · rw [if_pos hv]
    simp [okNonzero, winHash, hv]
  · rw [if_neg hv]
    have hw0 : winHash H w = 0 := by simp [winHash, hv]
    by_cases hf : force = true
    · rw [if_pos hf]
      simp [okNonzero, hw0]
    · rw [if_neg hf]
      simp [okNonzero, hw0]

theorem countP_kmers_pairs (H : List Char → Nat) (ws : List (List Char)) (skip : Bool) :
    (ws.filterMap (fun w =>
        if winHash H w ≠ 0 then some (canonList w, winHash H w)
        else if skip then none else some ([], 0))).countP (fun p => decide (p.2 ≠ 0))
      = ws.countP (fun w => decide (winHash H w ≠ 0)) := by
  rw [List.countP_filterMap]
  apply List.countP_congr
  intro w _
  by_cases hw : winHash H w ≠ 0
  · rw [if_pos hw]
    simp [hw]
  · rw [if_neg hw]
    by_cases hs : skip = true
    · rw [if_pos hs]
      simp [hw]
    · rw [if_neg hs]
      simp [hw]

theorem consume_general (H : List Char → Nat) (t : KmerCountTable) (seq : List Char)
    (skip : Bool) (t1 : KmerCountTable) (n : Nat)
    (hc : consume H t seq skip = (t1, Except.ok n)) :
    t1.consumed = (t.consumed + seq.length) % u64Mod ∧
    n = (windows (upperL seq) t.ksize).countP (fun w => decide (winHash H w ≠ 0)) := by
  simp only [consume] at hc
  by_cases hs : t.store_kmers
  · rw [if_pos hs] at hc
    have h1 := congrArg Prod.fst hc
    have h2 := congrArg Prod.snd hc
    simp only at h1 h2
    injection h2 with h2
    constructor
    · rw [← h1]
      simp only [consumePairsLoop_consumed]
    · rw [← h2, consumePairsLoop_count, kmersAndHashes_clean, countP_kmers_pairs]
      simp
  · rw [if_neg hs] at hc
    rcases hres : consumeHashesLoop t (encStream H seq t.ksize skip) 0 with ⟨tl, rl⟩
    rw [hres] at hc
    cases rl with
    | error e => exact absurd (congrArg Prod.snd hc) (by simp)
    | ok r =>
      have h1 := congrArg Prod.fst hc
      have h2 := congrArg Prod.snd hc
      simp only at h1 h2
      injection h2 with h2
      have hcons : tl.consumed = t.consumed := by
        have := consumeHashesLoop_consumed (encStream H seq t.ksize skip) t 0
        rw [hres] at this
        exact this
      constructor
      · rw [← h1]
        simp only [hcons]
      · rw [← h2]
        have := consumeHashesLoop_count (encStream H seq t.ksize skip) t 0 tl r hres
        rw [this, countP_encStream]
        simp

/-- C9: consumeSequence adds the sequence length to consumed exactly once at
the end of a successful call and returns the number of sliding-window
positions actually counted (those with a nonzero hash, skipped zero-hash
positions excluded); in particular with k = 3, consuming ACGTACGT with
skipBadKmers and no retention processes 6 sliding windows, returns the
number of nonzero-hash windows, and leaves consumed at 8. -/
theorem C9_consume_counts :
    (∀ (H : List Char → Nat) (t : KmerCountTable) (seq : List Char) (skip : Bool)
        (t1 : KmerCountTable) (n : Nat),
      consume H t seq skip = (t1, Except.ok n) →
        t1.consumed = (t.consumed + seq.length) % u64Mod ∧
        n = (windows (upperL seq) t.ksize).countP (fun w => decide (winHash H w ≠ 0))) ∧
    (∀ H : List Char → Nat, ∃ t1 n,
      consume H (KmerCountTable.new 3 false) ("ACGTACGT".data) true = (t1, Except.ok n) ∧
      (windows (upperL ("ACGTACGT".data)) 3).length = 6 ∧
      t1.consumed = 8 ∧
      n = (windows (upperL ("ACGTACGT".data)) 3).countP
            (fun w => decide (H (canonList w) ≠ 0))) := by
  refine ⟨consume_general, ?_⟩
  intro H
  obtain ⟨t2, r, hr⟩ := consumeHashesLoop_ok _
    (encStream_true_no_error H ("ACGTACGT".data) 3) (KmerCountTable.new 3 false) 0
  have hcon : consume H (KmerCountTable.new 3 false) ("ACGTACGT".data) true
      = ({ t2 with consumed := (t2.consumed + 8) % u64Mod }, Except.ok r) := by
    calc consume H (KmerCountTable.new 3 false) ("ACGTACGT".data) true
        = (match consumeHashesLoop (KmerCountTable.new 3 false)
            (encStream H ("ACGTACGT".data) 3 true) 0 with
          | (tl, Except.ok m) =>
            ({ tl with consumed := (tl.consumed + 8) % u64Mod }, Except.ok m)
          | (tl, Except.error e) => (tl, Except.error e)) := rfl
      _ = ({ t2 with consumed := (t2.consumed + 8) % u64Mod }, Except.ok r) := by rw [hr]
  obtain ⟨hcons, hn⟩ := consume_general H (KmerCountTable.new 3 false)
    ("ACGTACGT".data) true _ _ hcon
  refine ⟨_, r, hcon, by decide, ?_, ?_⟩
  · rw [hcons]
    decide
  · rw [hn]
    apply List.countP_congr
    intro w hw
    have hval : validDNA w = true := by
      revert w
      decide
    simp [winHash, hval]

/-- Witness for C9: a concrete consume call with an all-ones hash routine. -/
theorem C9_consume_counts_witness :
    ((consume (fun _ => 1) (KmerCountTable.new 3 false) ("ACG".data) true).1).consumed
        = ((KmerCountTable.new 3 false).consumed + ("ACG".data).length) % u64Mod ∧
    1 = (windows (upperL ("ACG".data)) (KmerCountTable.new 3 false).ksize).countP
          (fun w => decide (winHash (fun _ => 1) w ≠ 0)) :=
  C9_consume_counts.1 (fun _ => 1) (KmerCountTable.new 3 false) ("ACG".data) true
    ((consume (fun _ => 1) (KmerCountTable.new 3 false) ("ACG".data) true).1) 1 rfl

/-! k-mer-map update lemmas. -/

theorem orInsert_preserves (m : List (Nat × List Char)) (h k2 : Nat)
    (km km2 : List Char) (hl : alookup m h = some km) :
    alookup (orInsert m k2 km2) h = some km := by
  unfold orInsert
  cases he : alookup m k2 with
  | some v => exact hl
  | none =>
    have hne : k2 ≠ h := by
      intro heq
      rw [heq, hl] at he
      exact absurd he (by simp)
    simp only [alookup, hne, if_false]
    exact hl

theorem foldl_orInsert_preserves (l : List (Nat × List Char)) :
    ∀ m h km, alookup m h = some km →
      alookup (l.foldl (fun m p => orInsert m p.1 p.2) m) h = some km := by
  induction l with
  | nil => intro m h km hl; exact hl
  | cons p rest ih =>
    intro m h km hl
    exact ih _ h km (orInsert_preserves m h p.1 km p.2 hl)

/-- C1 counterexample: with a colliding instantiation of the black-box hash
(the boundary guarantees no injectivity), counting A and then C on a k = 1
retaining table overwrites the stored canonical k-mer for their shared hash 5:
the mapping changes from A to C, so a present entry is not preserved by
countKmer. -/
theorem C1_counterexample :
    alookup (collTable1.hash_to_kmer.getD []) 5 = some (['A']) ∧
    alookup (collTable2.hash_to_kmer.getD []) 5 = some (['C']) ∧
    (['C'] : List Char) ≠ (['A'] : List Char) :=
  ⟨by decide, by decide, by decide⟩

/-- C1 (amended): countKmer stores the canonical form of the counted k-mer at
its hash unconditionally, overwriting whatever entry was there (first-seen
wins only when the hash function never sends two canonical k-mers to one
hash); consumeSequence behaves the same way at each nonzero-hash window
(shown for a one-window sequence); and merge (add) does insert a k-mer string
only for hashes absent from the destination map, never replacing an existing
mapping. -/
theorem C1_kmer_map_semantics :
    (∀ (H : List Char → Nat) (t : KmerCountTable) (kmer : List Char)
        (t1 : KmerCountTable) (c h : Nat),
      count H t kmer = (t1, Except.ok c) → hashKmer H t kmer = Except.ok h →
      t.store_kmers = true →
      ∃ ck, canon t kmer = Except.ok ck ∧
        alookup (t1.hash_to_kmer.getD []) h = some ck) ∧
    (∀ (t o t1 : KmerCountTable) (r : Nat × Nat) (h : Nat) (km : List Char),
      add t o = (t1, Except.ok r) →
      alookup (t.hash_to_kmer.getD []) h = some km →
      alookup (t1.hash_to_kmer.getD []) h = some km) ∧
    (∀ (H : List Char → Nat) (t : KmerCountTable) (w : List Char) (skip : Bool)
        (t1 : KmerCountTable) (n : Nat),
      t.store_kmers = true → w.length = t.ksize → validDNA (upperL w) = true →
      H (canonList (upperL w)) ≠ 0 →
      consume H t w skip = (t1, Except.ok n) →
      alookup (t1.hash_to_kmer.getD []) (H (canonList (upperL w)))
        = some (canonList (upperL w))) := by
  refine ⟨?_, ?_, ?_⟩
  · intro H t kmer t1 c h hc hh hsk
    simp only [count] at hc
    by_cases hl : kmer.length % 256 ≠ t.ksize
    · rw [if_pos hl] at hc
      exact absurd (congrArg Prod.snd hc) (by simp)
    · rw [if_neg hl, hh] at hc
      simp only [countHash] at hc
      rw [if_pos (by simpa using hsk)] at hc
      rcases hcanon : canon { t with
          counts := aset t.counts h ((alookupD t.counts h 0 + 1) % u64Mod)
          consumed := (t.consumed + kmer.length) % u64Mod } kmer with e | ck
      · rw [hcanon] at hc
        exact absurd (congrArg Prod.snd hc) (by simp)
      · rw [hcanon] at hc
        have h1 := congrArg Prod.fst hc
        simp only at h1
        refine ⟨ck, ?_, ?_⟩
        · rw [← hcanon]
          rfl
        · rw [← h1]
          simp only [Option.getD_some]
          exact alookup_aset_self _ _ _
  · intro t o t1 r h km hadd hl
    by_cases hk : t.ksize = o.ksize
    · rw [add_ok t o hk] at hadd
      have h1 := congrArg Prod.fst hadd
      simp only at h1
      rw [← h1]
      by_cases hb : (t.store_kmers && o.store_kmers) = true
      · rw [if_pos hb]
        simp only [Option.getD_some]
        exact foldl_orInsert_preserves _ _ h km hl
      · rw [if_neg hb]
        exact hl
    · have : add t o = (t, Except.error TErr.incompatibleKsize) := by
        simp [add, hk]
      rw [this] at hadd
      exact absurd (congrArg Prod.snd hadd) (by simp)
  · intro H t w skip t1 n hsk hlen hvw hnz hc
    simp only [consume] at hc
    rw [if_pos (by simpa using hsk), kmersAndHashes_clean] at hc
    have hwin : windows (upperL w) t.ksize = [upperL w] := by
      have hlu : (upperL w).length = t.ksize := by rw [length_upperL, hlen]
      unfold windows
      rw [hlu, show t.ksize + 1 - t.ksize = 1 from by omega]
      rw [show List.range 1 = [0] from rfl]
      simp only [List.map_cons, List.map_nil, List.drop_zero]
      rw [← hlu, List.take_length]
    rw [hwin] at hc
    have hwh : winHash H (upperL w) = H (canonList (upperL w)) := by
      simp [winHash, hvw]
    rw [show (([upperL w].filterMap fun v =>
        if winHash H v ≠ 0 then some (canonList v, winHash H v)
        else if skip then none else some ([], 0)))
        = [(canonList (upperL w), H (canonList (upperL w)))] from by
      simp [hwh, hnz]] at hc
    simp only [consumePairsLoop] at hc
    rw [if_pos hnz] at hc
    have h1 := congrArg Prod.fst hc
    simp only at h1
    rw [← h1]
    simp only [Option.getD_some]
    exact alookup_aset_self _ _ _

/-- Witness for the amended C1: counting a concrete k-mer stores its canonical
form, and a concrete merge preserves an existing mapping. -/
theorem C1_kmer_map_semantics_witness :
    (∃ ck, canon (KmerCountTable.new 1 true) (['A']) = Except.ok ck ∧
      alookup ((count collHash (KmerCountTable.new 1 true) (['A'])).1.hash_to_kmer.getD [])
        5 = some ck) ∧
    alookup ((add dumpWitnessTable (KmerCountTable.new 2 false)).1.hash_to_kmer.getD [])
      5 = some ("AA".data) :=
  ⟨C1_kmer_map_semantics.1 collHash (KmerCountTable.new 1 true) (['A'])
      (count collHash (KmerCountTable.new 1 true) (['A'])).1 1 5 rfl rfl rfl,
    C1_kmer_map_semantics.2.1 dumpWitnessTable (KmerCountTable.new 2 false)
      (add dumpWitnessTable (KmerCountTable.new 2 false)).1
      ((add dumpWitnessTable (KmerCountTable.new 2 false)).2.toOption.getD (0, 0))
      5 ("AA".data) (by rfl) (by decide)⟩

end Oxli
